import Mathlib

/-!
Shallow embedding of the core subtitle-generation functions of the
repository (src/app_backup.py and src/utils/transcription.py).

Modelling conventions:
* Python strings are modelled as `List Char` (a Python string is a
  sequence of code points).
* Python numbers (floats/ints holding timestamps) are modelled as `ℚ`,
  i.e. exact rational arithmetic in place of IEEE double arithmetic.
* Python's `str.strip()` / `str.split()` use the whitespace set
  `' ', '\t', '\n', '\r', '\x0b', '\x0c'` (for the ASCII range), modelled
  by `isPySpace`.
* Fallible attribute access (`getattr(word, 'start', …)`) is modelled by
  records with all fields present, which is the shape the claims are about.
-/

set_option allowUnsafeReducibility true

attribute [semireducible] Rat.add Rat.sub Rat.mul Rat.inv

namespace SubGen

/-- Python's whitespace set (ASCII part) as used by `str.strip()` and
`str.split()` with no arguments. -/
def isPySpace (c : Char) : Bool :=
  c = ' ' || c = '\t' || c = '\n' || c = '\r' || c = '\x0b' || c = '\x0c'

/-- Python `str.strip()`: drop leading and trailing whitespace. -/
def pyStrip (l : List Char) : List Char :=
  ((l.dropWhile isPySpace).reverse.dropWhile isPySpace).reverse

/-- Auxiliary loop of Python `str.split()` (no argument): accumulate the
current token in `cur` (in order), emit it when whitespace or the end of
the string is reached. -/
def pySplitWSAux : List Char → List Char → List (List Char)
  | [], cur => if cur = [] then [] else [cur]
  | c :: rest, cur =>
      if isPySpace c then
        if cur = [] then pySplitWSAux rest [] else cur :: pySplitWSAux rest []
      else pySplitWSAux rest (cur ++ [c])

/-- Python `str.split()` with no argument: split on runs of whitespace,
discarding empty tokens. -/
def pySplitWS (l : List Char) : List (List Char) := pySplitWSAux l []

/-- Split a character list at each newline character (the physical lines
of a chunk, in the sense of the SRT wire format). -/
def splitNL : List Char → List (List Char)
  | [] => [[]]
  | c :: rest =>
      if c = '\n' then [] :: splitNL rest
      else
        match splitNL rest with
        | [] => [[c]]
        | l :: ls => (c :: l) :: ls

/-- Python `'\n'.join(lines)`. -/
def joinNL (ls : List (List Char)) : List Char := List.intercalate ['\n'] ls

/-- Python `lines[i:i+M] for i in range(0, len(lines), M)` (for `M ≥ 1`):
consecutive groups of `M` elements. -/
def groupsOf (M : Nat) : List α → List (List α)
  | [] => []
  | a :: l => (a :: l.take (M - 1)) :: groupsOf M (l.drop (M - 1))
termination_by l => l.length
decreasing_by
  simp only [List.length_drop, List.length_cons]
  omega

/-- The character class `'。！？、.:!?'` that `split_text_for_subtitles`
uses to cut the input into sentence-like units. -/
def isSubSentChar (c : Char) : Bool :=
  c = '。' || c = '！' || c = '？' || c = '、' || c = '.' || c = ':' ||
  c = '!' || c = '?'

/-- Sentence-splitting loop of `split_text_for_subtitles`
(src/app_backup.py lines 130-141): accumulate characters into
`current_sentence`; on each terminator char, append the stripped sentence
(terminator included) and restart; at the end, append the remainder if it
strips to something non-empty. -/
def sentSplitAux : List Char → List Char → List (List Char)
  | [], cur => if pyStrip cur = [] then [] else [pyStrip cur]
  | c :: rest, cur =>
      if isSubSentChar c then pyStrip (cur ++ [c]) :: sentSplitAux rest []
      else sentSplitAux rest (cur ++ [c])

/-- Greedy chunk-packing loop of `split_text_for_subtitles`
(src/app_backup.py lines 143-157): pack consecutive sentences into
`current_chunk` while the combined length stays within
`max_chars_per_line * max_lines`; otherwise flush the stripped chunk (if
non-empty) and restart from the current sentence. -/
def packChunksAux (LM : Nat) : List (List Char) → List Char → List (List Char)
  | [], cur => if cur = [] then [] else [pyStrip cur]
  | s :: ss, cur =>
      if cur.length + s.length ≤ LM then packChunksAux LM ss (cur ++ s)
      else if cur = [] then packChunksAux LM ss s
      else pyStrip cur :: packChunksAux LM ss s

/-- Word-wrapping loop of `split_text_for_subtitles`
(src/app_backup.py lines 164-176): greedily fill `current_line`
(which carries a trailing space after every word); when the next word
does not fit, flush the stripped line (if non-empty) and restart from
the word. -/
def wrapWordsAux (L : Nat) : List (List Char) → List Char → List (List Char)
  | [], cur => if cur = [] then [] else [pyStrip cur]
  | w :: ws, cur =>
      if cur.length + w.length ≤ L then wrapWordsAux L ws (cur ++ w ++ [' '])
      else if cur = [] then wrapWordsAux L ws (w ++ [' '])
      else pyStrip cur :: wrapWordsAux L ws (w ++ [' '])

/-- Per-chunk line-wrapping step of `split_text_for_subtitles`
(src/app_backup.py lines 160-186): a chunk that fits in one line is
passed through verbatim; otherwise it is word-wrapped, and the wrapped
lines are emitted as one caption when there are at most `max_lines` of
them, else in groups of `max_lines`. -/
def wrapChunk (L M : Nat) (chunk : List Char) : List (List Char) :=
  if chunk.length ≤ L then [chunk]
  else
    let lines := wrapWordsAux L (pySplitWS chunk) []
    if lines.length ≤ M then [joinNL lines]
    else (groupsOf M lines).map joinNL

/-- `split_text_for_subtitles(text, max_chars_per_line, max_lines)`
(src/app_backup.py lines 128-188). -/
def split_text_for_subtitles (text : List Char)
    (max_chars_per_line : Nat := 20) (max_lines : Nat := 2) :
    List (List Char) :=
  let sentences := sentSplitAux text []
  let chunks := packChunksAux (max_chars_per_line * max_lines) sentences []
  chunks.flatMap (wrapChunk max_chars_per_line max_lines)

/-! ### Segment-translation aligner (`estimate_translated_segment`) -/

/-- The sentence-terminator class `[。！？\.\!\?]` used by
`estimate_translated_segment` (src/app_backup.py line 417). -/
def isEstTermChar (c : Char) : Bool :=
  c = '。' || c = '！' || c = '？' || c = '.' || c = '!' || c = '?'

/-- Split at every single terminator character, dropping the terminators.
`re.split(r'[。！？\.\!\?]+', s)` merges runs of terminators; merging a run
only removes empty pieces, and the caller filters out all empty (stripped)
pieces anyway, so after the strip-and-filter below the two are equal. -/
def termSplitAux : List Char → List Char → List (List Char)
  | [], cur => [cur]
  | c :: rest, cur =>
      if isEstTermChar c then cur :: termSplitAux rest []
      else termSplitAux rest (cur ++ [c])

/-- The stripped, non-empty sentences of the full translated text
(src/app_backup.py lines 417-418):
`sentences = [s.strip() for s in re.split(...) if s.strip()]`. -/
def estSentences (full_translated_text : List Char) : List (List Char) :=
  ((termSplitAux full_translated_text []).map pyStrip).filter (fun s => s ≠ [])

/-- Python slice `l[a:b]` for `0 ≤ a, b` (clamping to the length). -/
def pySlice (l : List Char) (a b : Nat) : List Char := (l.drop a).take (b - a)

/-- The scan `for i in range(lo, hi): if full[i] in '。！？'`
(src/app_backup.py lines 439-441): index of the first CJK terminator in
the half-open range, if any. -/
def findCJKTerm (l : List Char) (lo hi : Nat) : Option Nat :=
  (List.range' lo (hi - lo)).find? (fun i =>
    match l.get? i with
    | some c => c = '。' || c = '！' || c = '？'
    | none => false)

/-- `estimate_translated_segment(original_text, full_translated_text,
segment_index, total_segments)` (src/app_backup.py lines 412-445).
`segment_index` and `total_segments` are modelled as `Nat` (the claims
restrict attention to `segment_index ≥ 0`; the callers pass list lengths).
The float expression `int(len(full) * (segment_index / max(total, 1)))`
is modelled by exact natural floor division; the two agree whenever the
float quotient is exact (in particular on every concrete input used
below). -/
def estimate_translated_segment (original_text full_translated_text : List Char)
    (segment_index total_segments : Nat) : List Char :=
  let sentences := estSentences full_translated_text
  if sentences = [] then original_text
  else if hlt : segment_index < sentences.length then
    let result := sentences.get ⟨segment_index, hlt⟩
    if segment_index < sentences.length - 1 then result ++ ['。'] else result
  else
    let n := full_translated_text.length
    let char_position := n * segment_index / (max total_segments 1)
    let start_pos := char_position - 50
    let end_pos := min n (char_position + 50)
    match findCJKTerm full_translated_text char_position end_pos with
    | some i => pyStrip (pySlice full_translated_text start_pos (i + 1))
    | none => pyStrip (pySlice full_translated_text start_pos end_pos)

/-! ### Natural boundary detector (`find_natural_segments`) -/

/-- A word-level timestamp entry as produced by the recognizer: the Python
attributes `word`, `start`, `end` (here `stop`, since `end` is a Lean
keyword). -/
structure Word where
  word : List Char
  start : ℚ
  stop : ℚ
deriving DecidableEq, Repr

/-- A natural segment (src/app_backup.py lines 396-401): the dict
`{'start': …, 'end': …, 'original_text': …, 'translated_text': …}`
(`end` is again rendered as `stop`). -/
structure Segment where
  start : ℚ
  stop : ℚ
  original_text : List Char
  translated_text : List Char
deriving DecidableEq, Repr

/-- `word_text.strip().endswith(('。', '！', '？', '.', '!', '?'))`
(src/app_backup.py line 361). -/
def isSentenceEndWord (t : List Char) : Bool :=
  match (pyStrip t).getLast? with
  | some c => isEstTermChar c
  | none => false

/-- `len([w for w in words if w.start <= word_end])`
(src/app_backup.py line 392). -/
def countWordsUpTo (words : List Word) (t : ℚ) : Nat :=
  (words.filter (fun w => w.start ≤ t)).length

/-- The main loop of `find_natural_segments` (src/app_backup.py lines
348-408).  `all` is the complete word list (used for the
`total_segments` argument of the aligner), `rest` the words not yet
processed, `i` the index of the head of `rest`, `segStart` the running
`segment_start`, `cur` the running `current_original_text`, `segs` the
segments accumulated so far (in order). -/
def fns_should_break (w : Word) (rest : List Word) (segStart : ℚ) : Bool :=
  (isSentenceEndWord w.word && decide (w.stop - segStart ≥ 3 / 2)) ||
  ((match rest with
    | next :: _ => decide (next.start - w.stop > 1)
    | [] => false) && decide (w.stop - segStart ≥ 2)) ||
  decide (w.stop - segStart > 6) || rest.isEmpty

/-- The segment value appended when a break fires at word `w`
(src/app_backup.py lines 385-401). -/
def fns_mk_seg (all : List Word) (translated : List Char) (w : Word)
    (segStart : ℚ) (cur : List Char) (nsegs : Nat) : Segment :=
  let original_segment_text := pyStrip cur
  ⟨segStart, w.stop, original_segment_text,
    estimate_translated_segment original_segment_text translated nsegs
      (countWordsUpTo all w.stop)⟩

def fnsAux (all : List Word) (translated : List Char) :
    List Word → Nat → ℚ → List Char → List Segment → List Segment
  | [], _, _, _, segs => segs
  | w :: rest, i, segStart0, cur0, segs =>
      let segStart := if i = 0 then w.start else segStart0
      let cur := cur0 ++ w.word ++ [' ']
      if fns_should_break w rest segStart then
        fnsAux all translated rest (i + 1)
          (if rest.isEmpty then segStart else w.stop) []
          (segs ++ [fns_mk_seg all translated w segStart cur segs.length])
      else fnsAux all translated rest (i + 1) segStart cur segs

/-- `find_natural_segments(words, translated_text)`
(src/app_backup.py lines 341-410). -/
def find_natural_segments (words : List Word) (translated_text : List Char) :
    List Segment :=
  fnsAux words translated_text words 0 0 [] []

/-! ### Timestamp formatter (`format_timestamp`, src/utils/transcription.py) -/

/-- Python `a % b` on numbers, for `b > 0`: `a - b * floor(a / b)`. -/
def pyMod (a b : ℚ) : ℚ := a - b * (⌊a / b⌋ : ℤ)

/-- Python `f"{n:02d}"`: decimal digits of `n`, zero-padded on the left to
at least two digits. -/
def format02 (n : Nat) : List Char :=
  if n < 100 then [Nat.digitChar (n / 10), Nat.digitChar (n % 10)]
  else (Nat.repr n).toList

/-- Python `f"{n:03d}"`: decimal digits of `n`, zero-padded on the left to
at least three digits. -/
def format03 (n : Nat) : List Char :=
  if n < 1000 then
    [Nat.digitChar (n / 100), Nat.digitChar (n / 10 % 10), Nat.digitChar (n % 10)]
  else (Nat.repr n).toList

/-- `hours = int(seconds // 3600)` for non-negative `seconds`. -/
def fts_hours (s : ℚ) : Nat := (⌊s / 3600⌋).toNat

/-- `minutes = int((seconds % 3600) // 60)` for non-negative `seconds`. -/
def fts_minutes (s : ℚ) : Nat := (⌊pyMod s 3600 / 60⌋).toNat

/-- `secs = int(seconds % 60)` for non-negative `seconds` (`int` truncates,
which is flooring on this non-negative value). -/
def fts_secs (s : ℚ) : Nat := (⌊pyMod s 60⌋).toNat

/-- `millisecs = int((seconds % 1) * 1000)` for non-negative `seconds`. -/
def fts_millis (s : ℚ) : Nat := (⌊pyMod s 1 * 1000⌋).toNat

/-- `format_timestamp(seconds)` (src/utils/transcription.py lines 355-366),
with the Python float replaced by `ℚ`: clamp at zero, decompose into
hours, minutes, seconds, milliseconds (all by flooring, which is what
`int(...)` does on these non-negative values), and render as
`HH:MM:SS,mmm`. -/
def format_timestamp (seconds : ℚ) : List Char :=
  let s := max 0 seconds
  format02 (fts_hours s) ++ ':' :: (format02 (fts_minutes s) ++ ':' ::
    (format02 (fts_secs s) ++ ',' :: format03 (fts_millis s)))

/-- Numeric value of a decimal digit character. -/
def digitVal (c : Char) : Nat := c.toNat - 48

/-- Whether a character is a decimal digit `'0'`-`'9'`. -/
def isDigitCh (c : Char) : Bool := 48 ≤ c.toNat && c.toNat ≤ 57

/-- Parse a string of the exact shape `HH:MM:SS,mmm` back into its four
numeric fields (hours, minutes, seconds, milliseconds).  This is the
reading direction of the round-trip property P3. -/
def parse_srt_timestamp : List Char → Option (Nat × Nat × Nat × Nat)
  | [h1, h2, c1, m1, m2, c2, s1, s2, c3, x1, x2, x3] =>
      if c1 = ':' && c2 = ':' && c3 = ',' &&
          (([h1, h2, m1, m2, s1, s2, x1, x2, x3].all isDigitCh)) then
        some (10 * digitVal h1 + digitVal h2,
              10 * digitVal m1 + digitVal m2,
              10 * digitVal s1 + digitVal s2,
              100 * digitVal x1 + 10 * digitVal x2 + digitVal x3)
      else none
  | _ => none

/-! ### Simple SRT builder (`create_srt_content`, src/utils/transcription.py) -/

/-- A coarse transcription segment as consumed by `create_srt_content`:
the dict keys `start`, `end` (here `stop`) and `text`. -/
structure CSeg where
  start : ℚ
  stop : ℚ
  text : List Char
deriving DecidableEq, Repr

/-- The cue blocks emitted by `create_srt_content`
(src/utils/transcription.py lines 375-387): one `(index, timing line,
text)` triple per enumerated segment whose stripped text is non-empty.
The index is the segment's 1-based position in the input list
(`enumerate(segments, 1)`), whether or not earlier segments were
skipped. -/
def srtBlocks (segments : List CSeg) : List (Nat × List Char × List Char) :=
  segments.enum.filterMap (fun p =>
    let t := pyStrip p.2.text
    if t = [] then none
    else some (p.1 + 1,
      format_timestamp p.2.start ++ (" --> ").toList ++ format_timestamp p.2.stop,
      t))

/-- Digits of a natural number, as printed by Python `f"{i}"`. -/
def natChars (n : Nat) : List Char := (Nat.repr n).toList

/-- `create_srt_content(segments)` (src/utils/transcription.py lines
368-390): the empty string for an empty segment list, otherwise the
newline-join of index line, timing line, text line and a blank line per
emitted cue. -/
def create_srt_content (segments : List CSeg) : List Char :=
  if segments = [] then []
  else joinNL ((srtBlocks segments).flatMap (fun b =>
    [natChars b.1, b.2.1, b.2.2, []]))

/-! ### Rich SRT builder (`create_srt_from_transcript_custom`,
src/app_backup.py) -/

/-- Python `int(q)` (truncation toward zero) on a rational. -/
def pyInt (q : ℚ) : Int := if 0 ≤ q then ⌊q⌋ else ⌈q⌉

/-- One `pysrt.SubRipItem`: index, start and end time in milliseconds
(`SubRipTime.from_ordinal(int(t * 1000))`), and the cue text. -/
structure Cue where
  index : Nat
  start : Int
  stop : Int
  text : List Char
deriving DecidableEq, Repr

/-- The whisper transcription object as consumed by
`create_srt_from_transcript_custom`: full text, optional word-level
timestamps, and the detected language (absent attribute modelled as
`none`, which `getattr(transcript, 'language', source_lang)` replaces by
`source_lang`). -/
structure Transcript where
  text : List Char
  words : List Word
  language : Option (List Char)

/-- The word-level cue emission loop of `create_srt_from_transcript_custom`
(src/app_backup.py lines 311-339): for each natural segment, re-split its
translated text; a single chunk yields one cue over the whole segment
range, several chunks share the range in equal slices; `idx` is the
running `subtitle_index` counter. -/
def buildCues (L M : Nat) : List Segment → Nat → List Cue
  | [], _ => []
  | seg :: rest, idx =>
      let cs := split_text_for_subtitles seg.translated_text L M
      if cs.length = 1 then
        ⟨idx, pyInt (seg.start * 1000), pyInt (seg.stop * 1000),
          cs.headD []⟩ :: buildCues L M rest (idx + 1)
      else
        let d := (seg.stop - seg.start) / (cs.length : ℚ)
        (cs.enum.map (fun p =>
          ⟨idx + p.1, pyInt ((seg.start + (p.1 : ℚ) * d) * 1000),
            pyInt ((seg.start + ((p.1 : ℚ) + 1) * d) * 1000), p.2⟩)) ++
        buildCues L M rest (idx + cs.length)

/-- `create_srt_from_transcript_custom(transcript, translation,
source_lang, target_lang, max_chars_per_line, max_lines)`
(src/app_backup.py lines 259-339).  The external translation call
`translate_with_claude` is passed in as the function parameter
`translateFn` (the spec treats the translator as a black box); the
`translation` argument of the Python function is unused by it and
omitted. -/
def create_srt_from_transcript_custom (translateFn : List Char → List Char)
    (transcript : Transcript) (source_lang target_lang : List Char)
    (L M : Nat) : List Cue :=
  let detected := transcript.language.getD source_lang
  let actual := if source_lang = ("auto").toList then detected else source_lang
  let need_translation := ¬(actual = target_lang ∨
    (actual = ("ja").toList ∧ target_lang = ("ja").toList) ∨
    (actual = ("japanese").toList ∧ target_lang = ("ja").toList))
  let full_text := transcript.text
  let full_translated_text :=
    if need_translation ∧ pyStrip full_text ≠ [] then translateFn full_text
    else full_text
  match transcript.words with
  | [] =>
      let chunks := split_text_for_subtitles full_translated_text L M
      let d : ℚ := if chunks = [] then 3 else max 2 (30 / (chunks.length : ℚ))
      chunks.enum.map (fun p =>
        ⟨p.1 + 1, pyInt ((p.1 : ℚ) * d * 1000),
          pyInt (((p.1 : ℚ) + 1) * d * 1000), p.2⟩)
  | w :: ws =>
      buildCues L M (find_natural_segments (w :: ws) full_translated_text) 1

/-! ## Lemmas about the timestamp formatter -/

lemma pyMod_eq_fract (a b : ℚ) (hb : b ≠ 0) :
    pyMod a b = b * Int.fract (a / b) := by
  unfold pyMod
  rw [Int.fract, mul_sub, mul_div_cancel₀ a hb]

lemma pyMod_nonneg (a b : ℚ) (hb : 0 < b) : 0 ≤ pyMod a b := by
  rw [pyMod_eq_fract a b hb.ne.symm]
  exact mul_nonneg hb.le (Int.fract_nonneg _)

lemma pyMod_lt (a b : ℚ) (hb : 0 < b) : pyMod a b < b := by
  rw [pyMod_eq_fract a b hb.ne.symm]
  calc b * Int.fract (a / b) < b * 1 :=
        (mul_lt_mul_left hb).mpr (Int.fract_lt_one _)
    _ = b := mul_one b

lemma digitChar_facts :
    ∀ d : Nat, d < 10 →
      isDigitCh (Nat.digitChar d) = true ∧ digitVal (Nat.digitChar d) = d := by
  decide

/-- Parsing inverts rendering on in-range components. -/
lemma parse_srt_render (h m sec ms : Nat) (hh : h < 100) (hm : m < 60)
    (hs : sec < 60) (hms : ms < 1000) :
    parse_srt_timestamp (format02 h ++ ':' :: (format02 m ++ ':' ::
      (format02 sec ++ ',' :: format03 ms))) = some (h, m, sec, ms) := by
  have dh1 := digitChar_facts (h / 10) (by omega)
  have dh2 := digitChar_facts (h % 10) (by omega)
  have dm1 := digitChar_facts (m / 10) (by omega)
  have dm2 := digitChar_facts (m % 10) (by omega)
  have ds1 := digitChar_facts (sec / 10) (by omega)
  have ds2 := digitChar_facts (sec % 10) (by omega)
  have dx1 := digitChar_facts (ms / 100) (by omega)
  have dx2 := digitChar_facts (ms / 10 % 10) (by omega)
  have dx3 := digitChar_facts (ms % 10) (by omega)
  rw [format02, if_pos hh, format02, if_pos (by omega : m < 100),
    format02, if_pos (by omega : sec < 100), format03, if_pos hms]
  simp only [List.cons_append, List.nil_append, parse_srt_timestamp,
    List.all_cons, List.all_nil, dh1.1, dh2.1, dm1.1, dm2.1, ds1.1, ds2.1,
    dx1.1, dx2.1, dx3.1, dh1.2, dh2.2, dm1.2, dm2.2, ds1.2, ds2.2,
    dx1.2, dx2.2, dx3.2, Bool.and_true, Bool.true_and]
  rw [if_pos]
  · congr 1
    have e1 : 10 * (h / 10) + h % 10 = h := by omega
    have e2 : 10 * (m / 10) + m % 10 = m := by omega
    have e3 : 10 * (sec / 10) + sec % 10 = sec := by omega
    have e4 : 100 * (ms / 100) + 10 * (ms / 10 % 10) + ms % 10 = ms := by
      omega
    rw [e1, e2, e3, e4]
  · simp

lemma floor_decompose (s : ℚ) :
    ⌊s / 3600⌋ * 3600 + ⌊pyMod s 3600 / 60⌋ * 60 + ⌊pyMod s 60⌋ = ⌊s⌋ := by
  have h1 : pyMod s 3600 / 60 = s / 60 - ((60 * ⌊s / 3600⌋ : ℤ) : ℚ) := by
    unfold pyMod
    push_cast
    ring
  have h2 : ⌊pyMod s 3600 / 60⌋ = ⌊s / 60⌋ - 60 * ⌊s / 3600⌋ := by
    rw [h1, Int.floor_sub_int]
  have h3 : pyMod s 60 = s - ((60 * ⌊s / 60⌋ : ℤ) : ℚ) := by
    unfold pyMod
    push_cast
    ring
  have h4 : ⌊pyMod s 60⌋ = ⌊s⌋ - 60 * ⌊s / 60⌋ := by
    rw [h3, Int.floor_sub_int]
  rw [h2, h4]
  ring

lemma pyMod_one_eq_fract (s : ℚ) : pyMod s 1 = Int.fract s := by
  unfold pyMod Int.fract
  rw [div_one, mul_comm, mul_one]

/-- C7: for every rational `0 ≤ s < 359999.999`, the string
`format_timestamp(s)` parses back as `HH:MM:SS,mmm`, and the recomputed
total `hours*3600 + minutes*60 + seconds + milliseconds/1000` is within
`0.001` of `s`.  (The Python float arithmetic is modelled exactly over
`ℚ`.) -/
theorem format_timestamp_round_trip (s : ℚ) (h0 : 0 ≤ s)
    (h1 : s < 359999999 / 1000) :
    ∃ h m sec ms : Nat,
      parse_srt_timestamp (format_timestamp s) = some (h, m, sec, ms) ∧
      |((h : ℚ) * 3600 + (m : ℚ) * 60 + (sec : ℚ) + (ms : ℚ) / 1000) - s|
        ≤ 1 / 1000 := by
  have hmax : max (0 : ℚ) s = s := max_eq_right h0
  have hfH : (0 : ℤ) ≤ ⌊s / 3600⌋ := Int.floor_nonneg.mpr (by positivity)
  have hfHlt : ⌊s / 3600⌋ < 100 := by
    rw [Int.floor_lt]
    push_cast
    rw [div_lt_iff₀ (by norm_num : (0:ℚ) < 3600)]
    linarith
  have hm3600 := pyMod_nonneg s 3600 (by norm_num)
  have hm3600' := pyMod_lt s 3600 (by norm_num)
  have hfM : (0 : ℤ) ≤ ⌊pyMod s 3600 / 60⌋ := Int.floor_nonneg.mpr (by positivity)
  have hfMlt : ⌊pyMod s 3600 / 60⌋ < 60 := by
    rw [Int.floor_lt]
    push_cast
    rw [div_lt_iff₀ (by norm_num : (0:ℚ) < 60)]
    linarith
  have hm60 := pyMod_nonneg s 60 (by norm_num)
  have hm60' := pyMod_lt s 60 (by norm_num)
  have hfS : (0 : ℤ) ≤ ⌊pyMod s 60⌋ := Int.floor_nonneg.mpr hm60
  have hfSlt : ⌊pyMod s 60⌋ < 60 := by
    rw [Int.floor_lt]
    push_cast
    linarith
  have hfr := pyMod_one_eq_fract s
  have hfrac0 : (0 : ℚ) ≤ Int.fract s := Int.fract_nonneg s
  have hfrac1 : Int.fract s < 1 := Int.fract_lt_one s
  have hfX : (0 : ℤ) ≤ ⌊pyMod s 1 * 1000⌋ := by
    rw [hfr]
    exact Int.floor_nonneg.mpr (by positivity)
  have hfXlt : ⌊pyMod s 1 * 1000⌋ < 1000 := by
    rw [hfr, Int.floor_lt]
    push_cast
    nlinarith
  refine ⟨fts_hours s, fts_minutes s, fts_secs s, fts_millis s, ?_, ?_⟩
  · rw [format_timestamp]
    simp only [hmax]
    exact parse_srt_render _ _ _ _
      (by unfold fts_hours; omega) (by unfold fts_minutes; omega)
      (by unfold fts_secs; omega) (by unfold fts_millis; omega)
  · have cH : ((fts_hours s : ℚ)) = ((⌊s / 3600⌋ : ℤ) : ℚ) := by
      unfold fts_hours
      exact_mod_cast Int.toNat_of_nonneg hfH
    have cM : ((fts_minutes s : ℚ)) = ((⌊pyMod s 3600 / 60⌋ : ℤ) : ℚ) := by
      unfold fts_minutes
      exact_mod_cast Int.toNat_of_nonneg hfM
    have cS : ((fts_secs s : ℚ)) = ((⌊pyMod s 60⌋ : ℤ) : ℚ) := by
      unfold fts_secs
      exact_mod_cast Int.toNat_of_nonneg hfS
    have cX : ((fts_millis s : ℚ)) = ((⌊pyMod s 1 * 1000⌋ : ℤ) : ℚ) := by
      unfold fts_millis
      exact_mod_cast Int.toNat_of_nonneg hfX
    have hsum : ((fts_hours s : ℚ)) * 3600 + ((fts_minutes s : ℚ)) * 60 +
        ((fts_secs s : ℚ)) = ((⌊s⌋ : ℤ) : ℚ) := by
      rw [cH, cM, cS]
      have := floor_decompose s
      push_cast [← this]
      ring
    have hfl : ((⌊s⌋ : ℤ) : ℚ) = s - Int.fract s := by
      rw [Int.fract]
      ring
    have hms_le : ((⌊pyMod s 1 * 1000⌋ : ℤ) : ℚ) ≤ Int.fract s * 1000 := by
      rw [hfr] at *
      exact Int.floor_le _
    have hms_gt : Int.fract s * 1000 < ((⌊pyMod s 1 * 1000⌋ : ℤ) : ℚ) + 1 := by
      rw [hfr] at *
      exact Int.lt_floor_add_one _
    rw [abs_le]
    constructor
    · rw [hsum, hfl, cX]
      linarith
    · rw [hsum, hfl, cX]
      linarith

/-- Witness for C7 at the spec's own example `s = 3661.2505`
(scenario D): the hypotheses hold there and the round trip applies. -/
theorem format_timestamp_round_trip_witness :
    (0 : ℚ) ≤ 36612505 / 10000 ∧ (36612505 / 10000 : ℚ) < 359999999 / 1000 ∧
    (∃ h m sec ms : Nat,
      parse_srt_timestamp (format_timestamp (36612505 / 10000)) =
        some (h, m, sec, ms) ∧
      |((h : ℚ) * 3600 + (m : ℚ) * 60 + (sec : ℚ) + (ms : ℚ) / 1000) -
          36612505 / 10000| ≤ 1 / 1000) :=
  ⟨by norm_num, by norm_num,
    format_timestamp_round_trip (36612505 / 10000) (by norm_num) (by norm_num)⟩

/-! ## Lemmas about the aligner -/

/-- C9: when the translated text has no non-empty sentence after
splitting on the sentence terminators, `estimate_translated_segment`
returns `original_text` unchanged, for every `segment_index` and
`total_segments`. -/
theorem estimate_no_sentence_returns_original
    (original full : List Char) (idx tot : Nat)
    (h : estSentences full = []) :
    estimate_translated_segment original full idx tot = original := by
  unfold estimate_translated_segment
  simp [h]

/-- Witness for C9: `full_translated_text = "。 "` consists only of a
terminator and whitespace, so the original text comes back unchanged. -/
theorem estimate_no_sentence_returns_original_witness :
    estSentences (("。 ").toList) = [] ∧
    estimate_translated_segment (("ab").toList) (("。 ").toList) 5 7 =
      ("ab").toList :=
  ⟨by decide, estimate_no_sentence_returns_original _ _ 5 7 (by decide)⟩

/-- Counterexample to C2 as stated: with the non-empty translation
`"a"`, `segment_index = 100` and `total_segments = 1`, the proportional
character window `[50:1]` is empty, so the function returns the empty
string (it does not raise, but the result is empty). -/
theorem estimate_translated_segment_empty_cex :
    (("a").toList ≠ ([] : List Char)) ∧
    estimate_translated_segment (("x").toList) (("a").toList) 100 1 = [] := by
  constructor
  · decide
  · decide

/-- C2 (amended): `estimate_translated_segment` is a total function (the
embedding never raises), and its result is non-empty whenever
`segment_index` is below the number of non-empty sentences of the
translation; the character-window fallback taken for larger indices may
return the empty string. -/
theorem estimate_nonempty_below_sentence_count
    (original full : List Char) (idx tot : Nat)
    (h : idx < (estSentences full).length) :
    estimate_translated_segment original full idx tot ≠ [] := by
  unfold estimate_translated_segment
  have hne : estSentences full ≠ [] := by
    intro e
    rw [e] at h
    simp at h
  rw [if_neg hne, dif_pos h]
  have hmem : (estSentences full).get ⟨idx, h⟩ ∈ estSentences full :=
    List.get_mem _ idx h
  have hns : (estSentences full).get ⟨idx, h⟩ ≠ [] := by
    have h2 : ∀ x ∈ estSentences full, x ≠ [] := by
      intro x hx
      unfold estSentences at hx
      have := List.of_mem_filter hx
      simpa using this
    exact h2 _ hmem
  by_cases hlast : idx < (estSentences full).length - 1
  · rw [if_pos hlast]
    simp
  · rw [if_neg hlast]
    exact hns

/-- Witness for C2 (amended) at `full = "a. b"`, `segment_index = 0`. -/
theorem estimate_nonempty_below_sentence_count_witness :
    0 < (estSentences (("a. b").toList)).length ∧
    estimate_translated_segment (("x").toList) (("a. b").toList) 0 2 ≠ [] :=
  ⟨by decide,
    estimate_nonempty_below_sentence_count _ _ 0 2 (by decide)⟩

/-! ## Lemmas about the natural boundary detector -/

/-- Invariant of the `find_natural_segments` loop: every accumulated
segment's start equals the previous segment's end, and every segment's
end is the end time of some word of the input.  The loop state satisfies:
at `i = 0` no segment has been emitted yet, and otherwise
`segment_start` is the end of the last emitted segment (if any). -/
lemma fnsAux_chain_mem (all : List Word) (tr : List Char) :
    ∀ (rest : List Word) (i : Nat) (segStart : ℚ) (cur : List Char)
      (segs : List Segment),
      (i = 0 → segs = []) →
      (∀ s, segs.getLast? = some s → segStart = s.stop) →
      List.Chain' (fun a b => b.start = a.stop) segs →
      (∀ s ∈ segs, ∃ w ∈ all, s.stop = w.stop) →
      (∀ w ∈ rest, w ∈ all) →
      List.Chain' (fun a b => b.start = a.stop)
          (fnsAux all tr rest i segStart cur segs) ∧
        ∀ s ∈ fnsAux all tr rest i segStart cur segs,
          ∃ w ∈ all, s.stop = w.stop := by
  intro rest
  induction rest with
  | nil =>
      intro i segStart cur segs _ _ hchain hmem _
      exact ⟨hchain, hmem⟩
  | cons w t ih =>
      intro i segStart cur segs h0 hlast hchain hmem hrest
      simp only [fnsAux]
      set ss := if i = 0 then w.start else segStart with hss
      have hlast' : ∀ s, segs.getLast? = some s → ss = s.stop := by
        intro s hs
        by_cases hi : i = 0
        · rw [h0 hi] at hs
          simp at hs
        · rw [hss, if_neg hi]
          exact hlast s hs
      by_cases hbr : fns_should_break w t ss = true
      · rw [if_pos hbr]
        set newSeg := fns_mk_seg all tr w ss (cur ++ w.word ++ [' '])
          segs.length with hnew
        have hnstart : newSeg.start = ss := by
          rw [hnew]
          simp [fns_mk_seg]
        have hnstop : newSeg.stop = w.stop := by
          rw [hnew]
          simp [fns_mk_seg]
        have hchain' :
            List.Chain' (fun a b => b.start = a.stop) (segs ++ [newSeg]) := by
          rw [List.chain'_append]
          refine ⟨hchain, List.chain'_singleton _, ?_⟩
          intro x hx y hy
          simp only [List.head?_cons, Option.mem_def, Option.some.injEq] at hy
          subst hy
          rw [hnstart]
          exact hlast' x hx
        have hmem' : ∀ s ∈ segs ++ [newSeg], ∃ w' ∈ all, s.stop = w'.stop := by
          intro s hs
          rcases List.mem_append.mp hs with hold | hnewm
          · exact hmem s hold
          · have : s = newSeg := by simpa using hnewm
            subst this
            exact ⟨w, hrest w (List.mem_cons_self w t), by rw [hnstop]⟩
        cases t with
        | nil =>
            simp only [List.isEmpty_nil, if_pos, fnsAux]
            exact ⟨hchain', hmem'⟩
        | cons r rs =>
            simp only [List.isEmpty_cons, if_neg, Bool.false_eq_true,
              if_false]
            refine ih (i + 1) w.stop [] (segs ++ [newSeg]) (by omega) ?_
              hchain' hmem' ?_
            · intro s hs
              have : (segs ++ [newSeg]).getLast? = some newSeg := by simp
              rw [this] at hs
              injection hs with hs
              rw [← hs, hnstop]
            · intro w' hw'
              exact hrest w' (List.mem_cons_of_mem _ hw')
      · rw [if_neg hbr]
        refine ih (i + 1) ss (cur ++ w.word ++ [' ']) segs (by omega)
          hlast' hchain hmem ?_
        intro w' hw'
        exact hrest w' (List.mem_cons_of_mem _ hw')

/-- Invariant of the `find_natural_segments` loop used for P4: provided
word end times are sorted along the list and each word ends no earlier
than it starts, the running `segment_start` never exceeds the end of any
remaining word, so every emitted segment has `start ≤ end`. -/
lemma fnsAux_start_le_stop (all : List Word) (tr : List Char) :
    ∀ (rest : List Word) (i : Nat) (segStart : ℚ) (cur : List Char)
      (segs : List Segment),
      (∀ w ∈ rest, w.start ≤ w.stop) →
      List.Pairwise (fun a b => a.stop ≤ b.stop) rest →
      (i ≠ 0 → ∀ w ∈ rest, segStart ≤ w.stop) →
      (∀ s ∈ segs, s.start ≤ s.stop) →
      ∀ s ∈ fnsAux all tr rest i segStart cur segs, s.start ≤ s.stop := by
  intro rest
  induction rest with
  | nil =>
      intro i segStart cur segs _ _ _ hsegs
      exact hsegs
  | cons w t ih =>
      intro i segStart cur segs hws hpw hstart hsegs
      simp only [fnsAux]
      set ss := if i = 0 then w.start else segStart with hss
      have hssw : ss ≤ w.stop := by
        by_cases hi : i = 0
        · rw [hss, if_pos hi]
          exact hws w (List.mem_cons_self w t)
        · rw [hss, if_neg hi]
          exact hstart hi w (List.mem_cons_self w t)
      have hsst : ∀ w' ∈ t, ss ≤ w'.stop := by
        intro w' hw'
        by_cases hi : i = 0
        · rw [hss, if_pos hi]
          calc w.start ≤ w.stop := hws w (List.mem_cons_self w t)
            _ ≤ w'.stop := (List.pairwise_cons.mp hpw).1 w' hw'
        · rw [hss, if_neg hi]
          exact hstart hi w' (List.mem_cons_of_mem _ hw')
      have hws' : ∀ w' ∈ t, w'.start ≤ w'.stop := fun w' hw' =>
        hws w' (List.mem_cons_of_mem _ hw')
      have hpw' : List.Pairwise (fun a b => a.stop ≤ b.stop) t :=
        (List.pairwise_cons.mp hpw).2
      by_cases hbr : fns_should_break w t ss = true
      · rw [if_pos hbr]
        set newSeg := fns_mk_seg all tr w ss (cur ++ w.word ++ [' '])
          segs.length with hnew
        have hsegs' : ∀ s ∈ segs ++ [newSeg], s.start ≤ s.stop := by
          intro s hs
          rcases List.mem_append.mp hs with hold | hnewm
          · exact hsegs s hold
          · have : s = newSeg := by simpa using hnewm
            subst this
            rw [hnew]
            simpa [fns_mk_seg] using hssw
        cases t with
        | nil =>
            simp only [List.isEmpty_nil, if_pos, fnsAux]
            exact hsegs'
        | cons r rs =>
            simp only [List.isEmpty_cons, if_neg, Bool.false_eq_true,
              if_false]
            refine ih (i + 1) w.stop [] (segs ++ [newSeg]) hws' hpw' ?_ hsegs'
            intro _ w' hw'
            exact (List.pairwise_cons.mp hpw).1 w' hw'
      · rw [if_neg hbr]
        exact ih (i + 1) ss (cur ++ w.word ++ [' ']) segs hws' hpw'
          (fun _ => hsst) hsegs

/-- The top-level segments of `find_natural_segments` form a chain in
which each segment starts exactly where the previous one ended, and every
segment's end time is the end time of one of the input words. -/
lemma find_natural_segments_chain_mem (words : List Word) (tr : List Char) :
    List.Chain' (fun a b => b.start = a.stop)
        (find_natural_segments words tr) ∧
      ∀ s ∈ find_natural_segments words tr, ∃ w ∈ words, s.stop = w.stop := by
  unfold find_natural_segments
  exact fnsAux_chain_mem words tr words 0 0 [] [] (fun _ => rfl)
    (by simp) (by simp) (by simp) (fun w hw => hw)

/-- C8: `find_natural_segments` leaves no time gap between consecutive
segments: each segment starts exactly at the previous segment's end, so
any pause before a segment's first word is absorbed into that segment's
time span. -/
theorem find_natural_segments_no_gap (words : List Word) (tr : List Char)
    (j : Nat) (s1 s2 : Segment)
    (h1 : (find_natural_segments words tr).get? j = some s1)
    (h2 : (find_natural_segments words tr).get? (j + 1) = some s2) :
    s2.start = s1.stop := by
  have hchain := (find_natural_segments_chain_mem words tr).1
  rw [List.chain'_iff_get] at hchain
  rcases List.get?_eq_some.mp h1 with ⟨hj1, hg1⟩
  rcases List.get?_eq_some.mp h2 with ⟨hj2, hg2⟩
  have := hchain j (by omega)
  rw [hg1] at this
  have heq : (find_natural_segments words tr).get ⟨j + 1, by omega⟩ = s2 := hg2
  rw [heq] at this
  exact this

/-- Witness for C8 on a two-word input producing two segments. -/
theorem find_natural_segments_no_gap_witness :
    ((find_natural_segments [⟨("a.").toList, 0, 2⟩, ⟨("b").toList, 3, 4⟩]
        []).get? 0).map Segment.stop = some 2 ∧
    ((find_natural_segments [⟨("a.").toList, 0, 2⟩, ⟨("b").toList, 3, 4⟩]
        []).get? 1).map Segment.start = some 2 := by
  have h := find_natural_segments_no_gap
    [⟨("a.").toList, 0, 2⟩, ⟨("b").toList, 3, 4⟩] [] 0
    ((find_natural_segments [⟨("a.").toList, 0, 2⟩, ⟨("b").toList, 3, 4⟩]
      []).get ⟨0, by decide⟩)
    ((find_natural_segments [⟨("a.").toList, 0, 2⟩, ⟨("b").toList, 3, 4⟩]
      []).get ⟨1, by decide⟩)
    (by decide) (by decide)
  decide

/-- Counterexample to C3 as stated: for the words `"a."` spanning
`[0, 2]` (a sentence-end break fires there) and `"b"` spanning `[3, 4]`,
the second segment starts at `2` — the end of word 0 — whereas word 1
starts at `3`. -/
theorem find_natural_segments_next_start_cex :
    (find_natural_segments [⟨("a.").toList, 0, 2⟩, ⟨("b").toList, 3, 4⟩]
        []).map (fun s => (s.start, s.stop)) = [(0, 2), (2, 4)] ∧
    (([⟨("a.").toList, 0, 2⟩, ⟨("b").toList, 3, 4⟩] : List Word).get? 1).map
      Word.start = some 3 ∧
    ((2 : ℚ) ≠ 3) := by
  refine ⟨by decide, by decide, by decide⟩

/-- C3 (amended): whenever a break closes a segment at word `i` and more
segments follow, the next segment's start time equals the END time of
word `i` (the word that closed the segment), not the start time of word
`i+1`. -/
theorem find_natural_segments_next_start_eq_word_end (words : List Word)
    (tr : List Char) (j : Nat) (s1 s2 : Segment)
    (h1 : (find_natural_segments words tr).get? j = some s1)
    (h2 : (find_natural_segments words tr).get? (j + 1) = some s2) :
    ∃ w ∈ words, s1.stop = w.stop ∧ s2.start = w.stop := by
  have hgap := find_natural_segments_no_gap words tr j s1 s2 h1 h2
  have hmem := (find_natural_segments_chain_mem words tr).2
  have hs1 : s1 ∈ find_natural_segments words tr := by
    rcases List.get?_eq_some.mp h1 with ⟨hj1, hg1⟩
    rw [← hg1]
    exact List.get_mem _ j hj1
  rcases hmem s1 hs1 with ⟨w, hw, hstop⟩
  exact ⟨w, hw, hstop, by rw [hgap, hstop]⟩

/-- Witness for C3 (amended): on the counterexample input the second
segment indeed starts at the END of the breaking word `"a."`. -/
theorem find_natural_segments_next_start_eq_word_end_witness :
    ∃ w ∈ ([⟨("a.").toList, 0, 2⟩, ⟨("b").toList, 3, 4⟩] : List Word),
      ((find_natural_segments [⟨("a.").toList, 0, 2⟩, ⟨("b").toList, 3, 4⟩]
          []).get ⟨0, by decide⟩).stop = w.stop ∧
      ((find_natural_segments [⟨("a.").toList, 0, 2⟩, ⟨("b").toList, 3, 4⟩]
          []).get ⟨1, by decide⟩).start = w.stop :=
  find_natural_segments_next_start_eq_word_end
    [⟨("a.").toList, 0, 2⟩, ⟨("b").toList, 3, 4⟩] [] 0 _ _
    (by decide) (by decide)

/-- C4: on a non-empty word list whose timestamps are non-decreasing
along the list (each word's end no earlier than its start, each word's
start and end no earlier than the previous word's), every returned
segment satisfies `start ≤ end`, and consecutive segments satisfy
`previous.end ≤ next.start`. -/
theorem find_natural_segments_monotone (words : List Word) (tr : List Char)
    (_hne : words ≠ [])
    (hws : ∀ w ∈ words, w.start ≤ w.stop)
    (hsorted : List.Pairwise
      (fun a b => a.start ≤ b.start ∧ a.stop ≤ b.stop) words) :
    (∀ s ∈ find_natural_segments words tr, s.start ≤ s.stop) ∧
      ∀ j s1 s2, (find_natural_segments words tr).get? j = some s1 →
        (find_natural_segments words tr).get? (j + 1) = some s2 →
        s1.stop ≤ s2.start := by
  constructor
  · unfold find_natural_segments
    exact fnsAux_start_le_stop words tr words 0 0 [] [] hws
      (hsorted.imp (fun h => h.2)) (fun h => absurd rfl h) (by simp)
  · intro j s1 s2 h1 h2
    rw [find_natural_segments_no_gap words tr j s1 s2 h1 h2]

/-- Witness for C4 on a sorted two-word input. -/
theorem find_natural_segments_monotone_witness :
    (([⟨("a.").toList, 0, 2⟩, ⟨("b.").toList, 2, 4⟩] : List Word) ≠ []) ∧
    (∀ s ∈ find_natural_segments
        [⟨("a.").toList, 0, 2⟩, ⟨("b.").toList, 2, 4⟩] [],
      s.start ≤ s.stop) ∧
    (∀ j s1 s2,
      (find_natural_segments
        [⟨("a.").toList, 0, 2⟩, ⟨("b.").toList, 2, 4⟩] []).get? j = some s1 →
      (find_natural_segments
        [⟨("a.").toList, 0, 2⟩, ⟨("b.").toList, 2, 4⟩] []).get? (j + 1) =
        some s2 →
      s1.stop ≤ s2.start) := by
  have h := find_natural_segments_monotone
    [⟨("a.").toList, 0, 2⟩, ⟨("b.").toList, 2, 4⟩] [] (by decide)
    (by decide) (by decide)
  exact ⟨by decide, h.1, h.2⟩

/-! ## Lemmas about the SRT cue builders -/

lemma enumFrom_map_fst_add (k : Nat) (l : List α) :
    ∀ n, (List.enumFrom n l).map (fun p => k + p.1) =
      List.range' (k + n) l.length := by
  induction l with
  | nil => intro n; rfl
  | cons a t ih =>
      intro n
      rw [List.enumFrom_cons, List.map_cons, List.length_cons,
        List.range'_succ, ih (n + 1), ← Nat.add_assoc]

lemma enumFrom_map_fst_succ (l : List α) :
    ∀ n, (List.enumFrom n l).map (fun p => p.1 + 1) =
      List.range' (n + 1) l.length := by
  induction l with
  | nil => intro n; rfl
  | cons a t ih =>
      intro n
      rw [List.enumFrom_cons, List.map_cons, List.length_cons,
        List.range'_succ, ih (n + 1)]

/-- The word-level emission loop numbers its cues `idx, idx+1, …`
contiguously, whatever the segments contain. -/
lemma buildCues_indices (L M : Nat) :
    ∀ (segs : List Segment) (idx : Nat),
      (buildCues L M segs idx).map Cue.index =
        List.range' idx (buildCues L M segs idx).length := by
  intro segs
  induction segs with
  | nil => intro idx; rfl
  | cons seg rest ih =>
      intro idx
      by_cases hone :
          (split_text_for_subtitles seg.translated_text L M).length = 1
      · simp only [buildCues, if_pos hone, List.map_cons, List.length_cons,
          List.range'_succ]
        rw [ih (idx + 1)]
      · simp only [buildCues, if_neg hone, List.map_append, List.map_map,
          List.length_append, List.length_map]
        have hcomp :
            (Cue.index ∘ fun p : Nat × List Char =>
              (⟨idx + p.1, pyInt ((seg.start + (p.1 : ℚ) *
                  ((seg.stop - seg.start) /
                    ((split_text_for_subtitles seg.translated_text L M).length : ℚ))) * 1000),
                pyInt ((seg.start + ((p.1 : ℚ) + 1) *
                  ((seg.stop - seg.start) /
                    ((split_text_for_subtitles seg.translated_text L M).length : ℚ))) * 1000),
                p.2⟩ : Cue)) = fun p => idx + p.1 := rfl
        rw [hcomp, ih]
        have henum : (List.enumFrom 0
            (split_text_for_subtitles seg.translated_text L M)).map
              (fun p => idx + p.1) =
            List.range' idx
              (split_text_for_subtitles seg.translated_text L M).length := by
          have := enumFrom_map_fst_add idx
            (split_text_for_subtitles seg.translated_text L M) 0
          simpa using this
        rw [List.enum, henum]
        have hlen : (List.enumFrom 0
            (split_text_for_subtitles seg.translated_text L M)).length =
            (split_text_for_subtitles seg.translated_text L M).length := by
          simp
        rw [hlen]
        have := List.range'_append idx
          (split_text_for_subtitles seg.translated_text L M).length
          (buildCues L M rest
            (idx + (split_text_for_subtitles seg.translated_text L M).length)).length 1
        simp only [one_mul] at this
        rw [this, Nat.add_comm]

/-- When every segment's stripped text is non-empty, `srtBlocks` skips
nothing, so its indices are the contiguous positions. -/
lemma srtBlocks_indices_aux :
    ∀ (segs : List CSeg) (n : Nat),
      (∀ s ∈ segs, pyStrip s.text ≠ []) →
      ((List.enumFrom n segs).filterMap (fun p =>
        let t := pyStrip p.2.text
        if t = [] then none
        else some (p.1 + 1,
          format_timestamp p.2.start ++ (" --> ").toList ++
            format_timestamp p.2.stop, t))).map (fun b => b.1) =
        List.range' (n + 1) segs.length := by
  intro segs
  induction segs with
  | nil => intro n _; rfl
  | cons s t ih =>
      intro n hne
      rw [List.enumFrom_cons, List.filterMap_cons]
      have hs : pyStrip s.text ≠ [] := hne s (List.mem_cons_self s t)
      simp only [if_neg hs]
      rw [List.map_cons, List.length_cons, List.range'_succ,
        ih (n + 1) (fun x hx => hne x (List.mem_cons_of_mem _ hx))]

/-- Counterexample to C1 as stated for `create_srt_content`: a first
segment whose text strips to empty is skipped, but the second segment
still carries index 2, so the emitted sequence is `[2]`, not `[1]`. -/
theorem create_srt_content_index_gap_cex :
    (srtBlocks [⟨0, 1, (" ").toList⟩, ⟨1, 2, ("hi").toList⟩]).map
        (fun b => b.1) = [2] ∧
    (srtBlocks [⟨0, 1, (" ").toList⟩, ⟨1, 2, ("hi").toList⟩]).length = 1 ∧
    ([2] ≠ List.range' 1 1) := by
  refine ⟨by decide, by decide, by decide⟩

/-- C1 (amended): `create_srt_from_transcript_custom` always numbers its
emitted cues `1, 2, …, N` contiguously in emission order; the simpler
`create_srt_content` numbers each emitted cue by its segment's 1-based
position in the input list, which is `1, 2, …, N` with no gaps or repeats
exactly when every segment's stripped text is non-empty (a segment with
empty text is skipped together with its index). -/
theorem cue_indices_contiguous :
    (∀ (tf : List Char → List Char) (tr : Transcript)
        (sl tl : List Char) (L M : Nat),
      (create_srt_from_transcript_custom tf tr sl tl L M).map Cue.index =
        List.range' 1
          (create_srt_from_transcript_custom tf tr sl tl L M).length) ∧
    (∀ segs : List CSeg, (∀ s ∈ segs, pyStrip s.text ≠ []) →
      (srtBlocks segs).map (fun b => b.1) =
        List.range' 1 (srtBlocks segs).length) := by
  constructor
  · intro tf tr sl tl L M
    unfold create_srt_from_transcript_custom
    cases htr : tr.words with
    | nil =>
        simp only [List.map_map, List.length_map]
        have hcomp : ∀ d : ℚ, (Cue.index ∘ fun p : Nat × List Char =>
            (⟨p.1 + 1, pyInt ((p.1 : ℚ) * d * 1000),
              pyInt (((p.1 : ℚ) + 1) * d * 1000), p.2⟩ : Cue)) =
            fun p => p.1 + 1 := fun _ => rfl
        rw [hcomp]
        rw [List.enum]
        rw [enumFrom_map_fst_succ _ 0]
        simp
    | cons w ws => exact buildCues_indices L M _ 1
  · intro segs hne
    unfold srtBlocks
    have h := srtBlocks_indices_aux segs 0 hne
    have hlen : ((List.enumFrom 0 segs).filterMap (fun p =>
        let t := pyStrip p.2.text
        if t = [] then none
        else some (p.1 + 1,
          format_timestamp p.2.start ++ (" --> ").toList ++
            format_timestamp p.2.stop, t))).length = segs.length := by
      have := congrArg List.length h
      rw [List.length_map, List.length_range'] at this
      exact this
    rw [List.enum, h, hlen]

/-- Witness for C1 (amended): both conjuncts applied at concrete inputs
(a two-word transcript for the rich builder; two non-empty segments for
the simple builder). -/
theorem cue_indices_contiguous_witness :
    ((create_srt_from_transcript_custom id
        ⟨("hi there. bye.").toList,
         [⟨("hi").toList, 0, 1⟩, ⟨("there.").toList, 1, 2⟩,
          ⟨("bye.").toList, 4, 5⟩], some (("ja").toList)⟩
        (("ja").toList) (("ja").toList) 20 2).map Cue.index =
      List.range' 1
        (create_srt_from_transcript_custom id
          ⟨("hi there. bye.").toList,
           [⟨("hi").toList, 0, 1⟩, ⟨("there.").toList, 1, 2⟩,
            ⟨("bye.").toList, 4, 5⟩], some (("ja").toList)⟩
          (("ja").toList) (("ja").toList) 20 2).length) ∧
    ((∀ s ∈ ([⟨0, 1, ("a").toList⟩, ⟨1, 2, ("b").toList⟩] : List CSeg),
        pyStrip s.text ≠ []) ∧
      (srtBlocks [⟨0, 1, ("a").toList⟩, ⟨1, 2, ("b").toList⟩]).map
          (fun b => b.1) =
        List.range' 1
          (srtBlocks [⟨0, 1, ("a").toList⟩, ⟨1, 2, ("b").toList⟩]).length) :=
  ⟨cue_indices_contiguous.1 id _ _ _ 20 2,
    by decide,
    cue_indices_contiguous.2 _ (by decide)⟩

/-! ## Lemmas about stripping and whitespace -/

/-- A string with no leading and no trailing whitespace (the shape of
every value Python's `str.strip()` returns). -/
def NoEdgeWS (l : List Char) : Prop :=
  (∀ c, l.head? = some c → isPySpace c = false) ∧
  ∀ c, l.getLast? = some c → isPySpace c = false

/-- A string containing no whitespace at all. -/
def NoWS (l : List Char) : Prop := ∀ c ∈ l, isPySpace c = false

/-- A string whose only whitespace characters are plain spaces. -/
def OnlySp (l : List Char) : Prop :=
  ∀ c ∈ l, isPySpace c = false ∨ c = ' '

lemma mem_dropWhile_of_not (p : Char → Bool) {c : Char} :
    ∀ {l : List Char}, c ∈ l → p c = false → c ∈ l.dropWhile p := by
  intro l
  induction l with
  | nil => intro h; exact absurd h (List.not_mem_nil c)
  | cons a t ih =>
      intro hc hp
      rw [List.dropWhile_cons]
      by_cases ha : p a = true
      · rw [if_pos ha]
        rcases List.mem_cons.mp hc with rfl | hct
        · rw [hp] at ha
          exact absurd ha (by simp)
        · exact ih hct hp
      · rw [if_neg ha]
        exact hc

lemma head?_dropWhile_not (p : Char → Bool) :
    ∀ (l : List Char) (c : Char), (l.dropWhile p).head? = some c →
      p c = false := by
  intro l
  induction l with
  | nil => intro c h; simp at h
  | cons a t ih =>
      intro c h
      rw [List.dropWhile_cons] at h
      by_cases ha : p a = true
      · rw [if_pos ha] at h
        exact ih c h
      · rw [if_neg ha] at h
        simp only [List.head?_cons, Option.some.injEq] at h
        subst h
        simpa using ha

lemma dropWhile_eq_self_of (p : Char → Bool) (l : List Char)
    (h : ∀ c, l.head? = some c → p c = false) : l.dropWhile p = l := by
  cases l with
  | nil => rfl
  | cons a t =>
      rw [List.dropWhile_cons, if_neg]
      rw [h a rfl]
      simp

lemma getLast?_dropWhile (p : Char → Bool) :
    ∀ (l : List Char), l.dropWhile p ≠ [] →
      (l.dropWhile p).getLast? = l.getLast? := by
  intro l
  induction l with
  | nil => intro h; simp at h
  | cons a t ih =>
      intro h
      rw [List.dropWhile_cons] at h ⊢
      by_cases ha : p a = true
      · rw [if_pos ha] at h ⊢
        have ht : t ≠ [] := by
          intro e
          rw [e] at h
          simp at h
        rw [ih h]
        cases t with
        | nil => exact absurd rfl ht
        | cons b u => rw [List.getLast?_cons_cons]
      · rw [if_neg ha] at h ⊢

lemma pyStrip_subset {c : Char} {l : List Char} (h : c ∈ pyStrip l) :
    c ∈ l := by
  unfold pyStrip at h
  rw [List.mem_reverse] at h
  have h2 := (List.dropWhile_sublist isPySpace).mem h
  rw [List.mem_reverse] at h2
  exact (List.dropWhile_sublist isPySpace).mem h2

lemma mem_pyStrip_of_not {c : Char} {l : List Char} (hc : c ∈ l)
    (hp : isPySpace c = false) : c ∈ pyStrip l := by
  unfold pyStrip
  rw [List.mem_reverse]
  apply mem_dropWhile_of_not _ _ hp
  rw [List.mem_reverse]
  exact mem_dropWhile_of_not _ hc hp

lemma pyStrip_ne_nil {c : Char} {l : List Char} (hc : c ∈ l)
    (hp : isPySpace c = false) : pyStrip l ≠ [] := by
  intro e
  have := mem_pyStrip_of_not hc hp
  rw [e] at this
  exact absurd this (List.not_mem_nil c)

lemma pyStrip_eq_self {l : List Char} (h : NoEdgeWS l) : pyStrip l = l := by
  unfold pyStrip
  rw [dropWhile_eq_self_of _ l h.1]
  rw [dropWhile_eq_self_of _ l.reverse (fun c hc => by
    rw [List.head?_reverse] at hc
    exact h.2 c hc)]
  exact List.reverse_reverse l

lemma noEdgeWS_pyStrip (l : List Char) : NoEdgeWS (pyStrip l) := by
  constructor
  · intro c hc
    unfold pyStrip at hc
    rw [List.head?_reverse] at hc
    by_cases hne :
        ((l.dropWhile isPySpace).reverse.dropWhile isPySpace) = []
    · rw [hne] at hc
      simp at hc
    · rw [getLast?_dropWhile _ _ hne, List.getLast?_reverse] at hc
      exact head?_dropWhile_not _ _ _ hc
  · intro c hc
    unfold pyStrip at hc
    rw [List.getLast?_reverse] at hc
    exact head?_dropWhile_not _ _ _ hc

lemma noEdgeWS_of_noWS {l : List Char} (h : NoWS l) : NoEdgeWS l :=
  ⟨fun c hc => h c (List.mem_of_mem_head? hc),
    fun c hc => h c (List.mem_of_mem_getLast? hc)⟩

lemma noWS_onlySp {l : List Char} (h : NoWS l) : OnlySp l :=
  fun c hc => Or.inl (h c hc)

lemma noEdgeWS_append {a b : List Char} (ha : a ≠ []) (hb : b ≠ [])
    (h1 : ∀ c, a.head? = some c → isPySpace c = false)
    (h2 : ∀ c, b.getLast? = some c → isPySpace c = false) :
    NoEdgeWS (a ++ b) := by
  constructor
  · intro c hc
    rw [List.head?_append] at hc
    cases hha : a.head? with
    | none =>
        cases a with
        | nil => exact absurd rfl ha
        | cons x t => simp at hha
    | some d =>
        rw [hha] at hc
        simp only [Option.or_some, Option.some.injEq] at hc
        subst hc
        exact h1 d hha
  · intro c hc
    rw [List.getLast?_append] at hc
    cases hhb : b.getLast? with
    | none =>
        cases b with
        | nil => exact absurd rfl hb
        | cons x t =>
            rw [List.getLast?_eq_none_iff] at hhb
            exact absurd hhb (by simp)
    | some d =>
        rw [hhb] at hc
        simp only [Option.or_some, Option.some.injEq] at hc
        subst hc
        exact h2 d hhb

lemma pyStrip_append_ws {x : List Char} {c : Char} (hc : isPySpace c = true) :
    pyStrip (x ++ [c]) = pyStrip x := by
  unfold pyStrip
  rw [List.dropWhile_append]
  by_cases hx : (x.dropWhile isPySpace).isEmpty = true
  · rw [if_pos hx]
    have hx' : x.dropWhile isPySpace = [] := by
      cases hempty : x.dropWhile isPySpace with
      | nil => rfl
      | cons a t => rw [hempty] at hx; simp at hx
    rw [hx']
    simp only [List.dropWhile_cons, hc, if_pos]
    simp
  · rw [if_neg hx]
    rw [List.reverse_append]
    simp only [List.reverse_cons, List.reverse_nil, List.nil_append,
      List.singleton_append, List.dropWhile_cons, hc, if_pos]

/-! ## Lemmas about physical lines, joining and grouping -/

lemma joinNL_nil : joinNL [] = [] := by simp [joinNL, List.intercalate]

lemma joinNL_singleton (l : List Char) : joinNL [l] = l := by
  simp [joinNL, List.intercalate]

lemma joinNL_cons_cons (l a : List Char) (t : List (List Char)) :
    joinNL (l :: a :: t) = l ++ '\n' :: joinNL (a :: t) := by
  simp [joinNL, List.intercalate, List.intersperse]

lemma splitNL_ne_nil : ∀ l : List Char, splitNL l ≠ [] := by
  intro l
  induction l with
  | nil => simp [splitNL]
  | cons c t ih =>
      rw [splitNL]
      by_cases hc : c = '\n'
      · rw [if_pos hc]
        simp
      · rw [if_neg hc]
        cases h : splitNL t with
        | nil => simp
        | cons x xs => simp

lemma length_le_of_mem_splitNL :
    ∀ (l : List Char) (line : List Char), line ∈ splitNL l →
      line.length ≤ l.length := by
  intro l
  induction l with
  | nil =>
      intro line h
      rw [splitNL] at h
      simp only [List.mem_singleton] at h
      subst h
      simp
  | cons c t ih =>
      intro line h
      rw [splitNL] at h
      by_cases hc : c = '\n'
      · rw [if_pos hc] at h
        rcases List.mem_cons.mp h with rfl | h2
        · simp
        · calc line.length ≤ t.length := ih line h2
            _ ≤ (c :: t).length := by simp
      · rw [if_neg hc] at h
        cases hs : splitNL t with
        | nil => exact absurd hs (splitNL_ne_nil t)
        | cons x xs =>
            rw [hs] at h
            rcases List.mem_cons.mp h with rfl | h2
            · have hx : x ∈ splitNL t := by rw [hs]; exact List.mem_cons_self x xs
              have := ih x hx
              simpa using this
            · have hmem : line ∈ splitNL t := by
                rw [hs]
                exact List.mem_cons_of_mem x h2
              calc line.length ≤ t.length := ih line hmem
                _ ≤ (c :: t).length := by simp

lemma splitNL_eq_self {l : List Char} (h : ('\n') ∉ l) : splitNL l = [l] := by
  induction l with
  | nil => rfl
  | cons c t ih =>
      rw [splitNL, if_neg (fun e => h (by rw [← e]; exact List.mem_cons_self c t))]
      rw [ih (fun e => h (List.mem_cons_of_mem c e))]

lemma splitNL_append_newline {r : List Char} :
    ∀ {l : List Char}, ('\n') ∉ l →
      splitNL (l ++ '\n' :: r) = l :: splitNL r := by
  intro l
  induction l with
  | nil =>
      intro _
      rw [List.nil_append, splitNL, if_pos rfl]
  | cons c t ih =>
      intro h
      have hc : c ≠ '\n' := fun e => h (by rw [← e]; exact List.mem_cons_self c t)
      rw [List.cons_append, splitNL, if_neg hc,
        ih (fun e => h (List.mem_cons_of_mem c e))]

lemma splitNL_joinNL :
    ∀ (ls : List (List Char)), ls ≠ [] → (∀ l ∈ ls, ('\n') ∉ l) →
      splitNL (joinNL ls) = ls := by
  intro ls
  induction ls with
  | nil => intro h _; exact absurd rfl h
  | cons l t ih =>
      intro _ hnl
      cases t with
      | nil =>
          rw [joinNL_singleton]
          exact splitNL_eq_self (hnl l (List.mem_cons_self l []))
      | cons a u =>
          rw [joinNL_cons_cons,
            splitNL_append_newline (hnl l (List.mem_cons_self l (a :: u))),
            ih (by simp) (fun x hx => hnl x (List.mem_cons_of_mem l hx))]

lemma joinNL_ne_nil :
    ∀ (ls : List (List Char)), ls ≠ [] → (∀ l ∈ ls, l ≠ []) →
      joinNL ls ≠ [] := by
  intro ls
  cases ls with
  | nil => intro h _; exact absurd rfl h
  | cons l t =>
      intro _ hne
      cases t with
      | nil =>
          rw [joinNL_singleton]
          exact hne l (List.mem_cons_self l [])
      | cons a u =>
          rw [joinNL_cons_cons]
          simp

lemma mem_joinNL :
    ∀ (ls : List (List Char)) (c : Char), c ∈ joinNL ls →
      (∃ l ∈ ls, c ∈ l) ∨ c = '\n' := by
  intro ls
  induction ls with
  | nil =>
      intro c h
      rw [joinNL_nil] at h
      exact absurd h (List.not_mem_nil c)
  | cons l t ih =>
      intro c h
      cases t with
      | nil =>
          rw [joinNL_singleton] at h
          exact Or.inl ⟨l, List.mem_cons_self l [], h⟩
      | cons a u =>
          rw [joinNL_cons_cons] at h
          rcases List.mem_append.mp h with h1 | h2
          · exact Or.inl ⟨l, List.mem_cons_self l (a :: u), h1⟩
          · rcases List.mem_cons.mp h2 with rfl | h3
            · exact Or.inr rfl
            · rcases ih c h3 with ⟨x, hx, hcx⟩ | hnl
              · exact Or.inl ⟨x, List.mem_cons_of_mem l hx, hcx⟩
              · exact Or.inr hnl

lemma mem_groupsOf {M : Nat} (hM : 1 ≤ M) :
    ∀ (l g : List (List Char)), g ∈ groupsOf M l →
      g.length ≤ M ∧ g ≠ [] ∧ ∀ x ∈ g, x ∈ l
  | [], g, hg => by
      rw [groupsOf] at hg
      exact absurd hg (List.not_mem_nil g)
  | a :: l, g, hg => by
      rw [groupsOf] at hg
      rcases List.mem_cons.mp hg with rfl | h
      · refine ⟨?_, by simp, ?_⟩
        · simp only [List.length_cons, List.length_take]
          omega
        · intro x hx
          rcases List.mem_cons.mp hx with rfl | hx2
          · exact List.mem_cons_self x l
          · exact List.mem_cons_of_mem a (List.take_subset _ _ hx2)
      · have rec := mem_groupsOf hM (l.drop (M - 1)) g h
        exact ⟨rec.1, rec.2.1, fun x hx =>
          List.mem_cons_of_mem a (List.drop_subset _ _ (rec.2.2 x hx))⟩
termination_by l _ _ => l.length
decreasing_by
  simp only [List.length_drop, List.length_cons]
  omega

/-! ## Lemmas about Python `split()` tokens -/

lemma pySplitWSAux_tokens :
    ∀ (l cur : List Char), NoWS cur →
      ∀ w ∈ pySplitWSAux l cur, w ≠ [] ∧ NoWS w := by
  intro l
  induction l with
  | nil =>
      intro cur hcur w hw
      rw [pySplitWSAux] at hw
      by_cases hc : cur = []
      · rw [if_pos hc] at hw
        exact absurd hw (List.not_mem_nil w)
      · rw [if_neg hc] at hw
        simp only [List.mem_singleton] at hw
        subst hw
        exact ⟨hc, hcur⟩
  | cons c t ih =>
      intro cur hcur w hw
      rw [pySplitWSAux] at hw
      by_cases hsp : isPySpace c = true
      · rw [if_pos hsp] at hw
        by_cases hc : cur = []
        · rw [if_pos hc] at hw
          exact ih [] (fun x hx => absurd hx (List.not_mem_nil x)) w hw
        · rw [if_neg hc] at hw
          rcases List.mem_cons.mp hw with rfl | hw2
          · exact ⟨hc, hcur⟩
          · exact ih [] (fun x hx => absurd hx (List.not_mem_nil x)) w hw2
      · rw [if_neg hsp] at hw
        refine ih (cur ++ [c]) ?_ w hw
        intro x hx
        rcases List.mem_append.mp hx with h1 | h2
        · exact hcur x h1
        · rw [List.mem_singleton] at h2
          subst h2
          simpa using hsp

lemma pySplitWS_tokens (l : List Char) :
    ∀ w ∈ pySplitWS l, w ≠ [] ∧ NoWS w :=
  pySplitWSAux_tokens l [] (fun x hx => absurd hx (List.not_mem_nil x))

lemma pySplitWSAux_ne_nil :
    ∀ (l cur : List Char), cur ≠ [] → pySplitWSAux l cur ≠ [] := by
  intro l
  induction l with
  | nil =>
      intro cur hc
      rw [pySplitWSAux, if_neg hc]
      simp
  | cons c t ih =>
      intro cur hc
      rw [pySplitWSAux]
      by_cases hsp : isPySpace c = true
      · rw [if_pos hsp, if_neg hc]
        simp
      · rw [if_neg hsp]
        exact ih (cur ++ [c]) (by simp)

lemma pySplitWS_ne_nil {l : List Char} {c : Char} (hh : l.head? = some c)
    (hc : isPySpace c = false) : pySplitWS l ≠ [] := by
  cases l with
  | nil => simp at hh
  | cons a t =>
      simp only [List.head?_cons, Option.some.injEq] at hh
      unfold pySplitWS
      rw [pySplitWSAux, if_neg (by rw [hh, hc]; simp)]
      exact pySplitWSAux_ne_nil t [a] (by simp)

/-! ## Invariants of the segmenter pipeline -/

lemma isSubSentChar_not_ws {c : Char} (h : isSubSentChar c = true) :
    isPySpace c = false := by
  unfold isSubSentChar at h
  simp only [Bool.or_eq_true, decide_eq_true_eq] at h
  rcases h with (((((((h | h) | h) | h) | h) | h) | h) | h) <;> subst h <;>
    decide

/-- Every sentence produced by the sentence-splitting pass is non-empty,
stripped, and made of characters of the input. -/
lemma sentSplitAux_good (P : Char → Prop) :
    ∀ (l cur : List Char), (∀ x ∈ l, P x) → (∀ x ∈ cur, P x) →
      ∀ s ∈ sentSplitAux l cur, s ≠ [] ∧ NoEdgeWS s ∧ ∀ x ∈ s, P x := by
  intro l
  induction l with
  | nil =>
      intro cur _ hcur s hs
      rw [sentSplitAux] at hs
      by_cases h : pyStrip cur = []
      · rw [if_pos h] at hs
        exact absurd hs (List.not_mem_nil s)
      · rw [if_neg h] at hs
        rw [List.mem_singleton] at hs
        subst hs
        exact ⟨h, noEdgeWS_pyStrip cur, fun x hx => hcur x (pyStrip_subset hx)⟩
  | cons c t ih =>
      intro cur hl hcur s hs
      have hct : ∀ x ∈ t, P x := fun x hx => hl x (List.mem_cons_of_mem c hx)
      have hcc : P c := hl c (List.mem_cons_self c t)
      have hcur' : ∀ x ∈ cur ++ [c], P x := by
        intro x hx
        rcases List.mem_append.mp hx with h1 | h2
        · exact hcur x h1
        · rw [List.mem_singleton] at h2
          subst h2
          exact hcc
      rw [sentSplitAux] at hs
      by_cases hterm : isSubSentChar c = true
      · rw [if_pos hterm] at hs
        rcases List.mem_cons.mp hs with rfl | hs2
        · refine ⟨?_, noEdgeWS_pyStrip _, fun x hx =>
            hcur' x (pyStrip_subset hx)⟩
          exact pyStrip_ne_nil (List.mem_append.mpr (Or.inr (by simp)))
            (isSubSentChar_not_ws hterm)
        · exact ih [] hct (fun x hx => absurd hx (List.not_mem_nil x)) s hs2
      · rw [if_neg hterm] at hs
        exact ih (cur ++ [c]) hct hcur' s hs

/-- Every chunk produced by the greedy packing pass is non-empty,
stripped, and made of characters of the sentences. -/
lemma packChunksAux_good (P : Char → Prop) (LM : Nat) :
    ∀ (ss : List (List Char)) (cur : List Char),
      (∀ s ∈ ss, s ≠ [] ∧ NoEdgeWS s ∧ ∀ x ∈ s, P x) →
      (cur = [] ∨ (cur ≠ [] ∧ NoEdgeWS cur ∧ ∀ x ∈ cur, P x)) →
      ∀ c ∈ packChunksAux LM ss cur,
        c ≠ [] ∧ NoEdgeWS c ∧ ∀ x ∈ c, P x := by
  intro ss
  induction ss with
  | nil =>
      intro cur _ hcur c hc
      rw [packChunksAux] at hc
      rcases hcur with rfl | ⟨hne, hed, hP⟩
      · rw [if_pos rfl] at hc
        exact absurd hc (List.not_mem_nil c)
      · rw [if_neg hne] at hc
        rw [List.mem_singleton] at hc
        subst hc
        rw [pyStrip_eq_self hed]
        exact ⟨hne, hed, hP⟩
  | cons s ss ih =>
      intro cur hss hcur c hc
      have hs := hss s (List.mem_cons_self s ss)
      have hss' : ∀ x ∈ ss, x ≠ [] ∧ NoEdgeWS x ∧ ∀ y ∈ x, P y :=
        fun x hx => hss x (List.mem_cons_of_mem s hx)
      rw [packChunksAux] at hc
      by_cases hfit : cur.length + s.length ≤ LM
      · rw [if_pos hfit] at hc
        refine ih (cur ++ s) hss' ?_ c hc
        rcases hcur with rfl | ⟨hne, hed, hP⟩
        · rw [List.nil_append]
          exact Or.inr ⟨hs.1, hs.2.1, hs.2.2⟩
        · refine Or.inr ⟨by simp [hs.1], ?_, ?_⟩
          · exact noEdgeWS_append hne hs.1 hed.1 hs.2.1.2
          · intro x hx
            rcases List.mem_append.mp hx with h1 | h2
            · exact hP x h1
            · exact hs.2.2 x h2
      · rw [if_neg hfit] at hc
        rcases hcur with rfl | ⟨hne, hed, hP⟩
        · rw [if_pos rfl] at hc
          exact ih s hss' (Or.inr ⟨hs.1, hs.2.1, hs.2.2⟩) c hc
        · rw [if_neg hne] at hc
          rcases List.mem_cons.mp hc with rfl | hc2
          · rw [pyStrip_eq_self hed]
            exact ⟨hne, hed, hP⟩
          · exact ih s hss' (Or.inr ⟨hs.1, hs.2.1, hs.2.2⟩) c hc2

/-- The shape of every line the word-wrapping loop can emit: non-empty,
stripped, spaces as its only whitespace, and within the width bound
unless it is a single oversized token. -/
def GoodLine (L : Nat) (line : List Char) : Prop :=
  line ≠ [] ∧ NoEdgeWS line ∧ OnlySp line ∧ (line.length ≤ L ∨ NoWS line)

lemma not_newline_of_onlySp {l : List Char} (h : OnlySp l) : ('\n') ∉ l := by
  intro hm
  rcases h _ hm with h1 | h1
  · exact absurd h1 (by decide)
  · exact absurd h1 (by decide)

/-- Main invariant of the word-wrapping loop (src/app_backup.py lines
164-176): `current_line` is empty or a good line followed by one trailing
space, and every emitted line is good.  The width disjunct mirrors the
guard `len(current_line + word) <= max_chars_per_line`: a multi-word line
was accepted under the guard, a fresh single-word line may exceed it. -/
lemma wrapWordsAux_good (L : Nat) :
    ∀ (ws : List (List Char)) (cur : List Char),
      (∀ w ∈ ws, w ≠ [] ∧ NoWS w) →
      (cur = [] ∨ ∃ t, cur = t ++ [' '] ∧ GoodLine L t) →
      ∀ line ∈ wrapWordsAux L ws cur, GoodLine L line := by
  intro ws
  induction ws with
  | nil =>
      intro cur _ hcur line hline
      rw [wrapWordsAux] at hline
      rcases hcur with rfl | ⟨t, rfl, hgl⟩
      · rw [if_pos rfl] at hline
        exact absurd hline (List.not_mem_nil line)
      · rw [if_neg (by simp)] at hline
        rw [List.mem_singleton] at hline
        subst hline
        rw [pyStrip_append_ws (by decide), pyStrip_eq_self hgl.2.1]
        exact hgl
  | cons w ws ih =>
      intro cur hws hcur line hline
      have hw := hws w (List.mem_cons_self w ws)
      have hws' : ∀ x ∈ ws, x ≠ [] ∧ NoWS x :=
        fun x hx => hws x (List.mem_cons_of_mem w hx)
      have hfresh : w ++ [' '] = [] ∨
          ∃ t, w ++ [' '] = t ++ [' '] ∧ GoodLine L t :=
        Or.inr ⟨w, rfl, hw.1, noEdgeWS_of_noWS hw.2,
          noWS_onlySp hw.2, Or.inr hw.2⟩
      rw [wrapWordsAux] at hline
      by_cases hfit : cur.length + w.length ≤ L
      · rw [if_pos hfit] at hline
        rcases hcur with rfl | ⟨t, rfl, hgl⟩
        · rw [List.nil_append] at hline
          exact ih (w ++ [' ']) hws' hfresh line hline
        · refine ih (t ++ [' '] ++ w ++ [' ']) hws'
            (Or.inr ⟨t ++ [' '] ++ w, rfl, ?_⟩) line hline
          refine ⟨by simp, ?_, ?_, ?_⟩
          · rw [List.append_assoc]
            refine noEdgeWS_append hgl.1 (by simp) hgl.2.1.1 ?_
            intro c hc
            rw [List.getLast?_append] at hc
            cases hwl : w.getLast? with
            | none =>
                rw [List.getLast?_eq_none_iff] at hwl
                exact absurd hwl hw.1
            | some d =>
                rw [hwl] at hc
                simp only [Option.or_some, Option.some.injEq] at hc
                subst hc
                exact hw.2 d (List.mem_of_mem_getLast? hwl)
          · intro c hc
            rcases List.mem_append.mp hc with h1 | h2
            · rcases List.mem_append.mp h1 with h3 | h4
              · exact hgl.2.2.1 c h3
              · rw [List.mem_singleton] at h4
                exact Or.inr h4
            · exact Or.inl (hw.2 c h2)
          · left
            simp only [List.length_append, List.length_cons,
              List.length_nil] at hfit ⊢
            omega
      · rw [if_neg hfit] at hline
        rcases hcur with rfl | ⟨t, rfl, hgl⟩
        · rw [if_pos rfl] at hline
          exact ih (w ++ [' ']) hws' hfresh line hline
        · rw [if_neg (by simp)] at hline
          rcases List.mem_cons.mp hline with rfl | hline2
          · rw [pyStrip_append_ws (by decide), pyStrip_eq_self hgl.2.1]
            exact hgl
          · exact ih (w ++ [' ']) hws' hfresh line hline2

lemma wrapWordsAux_ne_nil (L : Nat) :
    ∀ (ws : List (List Char)) (cur : List Char), ws ≠ [] ∨ cur ≠ [] →
      wrapWordsAux L ws cur ≠ [] := by
  intro ws
  induction ws with
  | nil =>
      intro cur h
      rcases h with h | h
      · exact absurd rfl h
      · rw [wrapWordsAux, if_neg h]
        simp
  | cons w ws ih =>
      intro cur _
      rw [wrapWordsAux]
      by_cases hfit : cur.length + w.length ≤ L
      · rw [if_pos hfit]
        exact ih _ (Or.inr (by simp))
      · rw [if_neg hfit]
        by_cases hc : cur = []
        · rw [if_pos hc]
          exact ih _ (Or.inr (by simp))
        · rw [if_neg hc]
          simp

/-- Master property of the per-chunk wrapping step: every emitted caption
is non-empty; every physical line is within the width bound or is a
single oversized token; and (when the chunk itself has no newline, which
is automatic in the wrapping branch) the caption has at most `max_lines`
physical lines, each non-empty and stripped. -/
lemma wrapChunk_master (L M : Nat) (hM : 1 ≤ M) {pc : List Char}
    (hpc : pc ≠ []) (hed : NoEdgeWS pc) :
    ∀ chunk ∈ wrapChunk L M pc,
      chunk ≠ [] ∧
      (∀ line ∈ splitNL chunk, line.length ≤ L ∨ NoWS line) ∧
      (('\n') ∉ pc →
        (splitNL chunk).length ≤ M ∧
        ∀ line ∈ splitNL chunk, line ≠ [] ∧ NoEdgeWS line) := by
  intro chunk hc
  rw [wrapChunk] at hc
  by_cases hshort : pc.length ≤ L
  · rw [if_pos hshort] at hc
    rw [List.mem_singleton] at hc
    subst hc
    refine ⟨hpc, ?_, ?_⟩
    · intro line hline
      exact Or.inl (le_trans (length_le_of_mem_splitNL _ _ hline) hshort)
    · intro hnl
      rw [splitNL_eq_self hnl]
      exact ⟨hM, fun line hline => by
        rw [List.mem_singleton] at hline
        subst hline
        exact ⟨hpc, hed⟩⟩
  · rw [if_neg hshort] at hc
    simp only at hc
    have htoks := pySplitWS_tokens pc
    have hlines : ∀ line ∈ wrapWordsAux L (pySplitWS pc) [], GoodLine L line :=
      wrapWordsAux_good L (pySplitWS pc) [] htoks (Or.inl rfl)
    have hpch : ∃ c, pc.head? = some c := by
      cases pc with
      | nil => exact absurd rfl hpc
      | cons a t => exact ⟨a, rfl⟩
    rcases hpch with ⟨c0, hc0⟩
    have htne : pySplitWS pc ≠ [] := pySplitWS_ne_nil hc0 (hed.1 c0 hc0)
    have hlne : wrapWordsAux L (pySplitWS pc) [] ≠ [] :=
      wrapWordsAux_ne_nil L _ [] (Or.inl htne)
    have hnonl : ∀ line ∈ wrapWordsAux L (pySplitWS pc) [], ('\n') ∉ line :=
      fun line hl => not_newline_of_onlySp (hlines line hl).2.2.1
    by_cases hfew : (wrapWordsAux L (pySplitWS pc) []).length ≤ M
    · rw [if_pos hfew] at hc
      rw [List.mem_singleton] at hc
      subst hc
      have hsplit : splitNL (joinNL (wrapWordsAux L (pySplitWS pc) [])) =
          wrapWordsAux L (pySplitWS pc) [] :=
        splitNL_joinNL _ hlne hnonl
      refine ⟨joinNL_ne_nil _ hlne (fun l hl => (hlines l hl).1), ?_, ?_⟩
      · intro line hline
        rw [hsplit] at hline
        exact (hlines line hline).2.2.2
      · intro _
        rw [hsplit]
        exact ⟨hfew, fun line hline =>
          ⟨(hlines line hline).1, (hlines line hline).2.1⟩⟩
    · rw [if_neg hfew] at hc
      rcases List.mem_map.mp hc with ⟨g, hg, rfl⟩
      have hgm := mem_groupsOf hM _ g hg
      have hgsub : ∀ x ∈ g, GoodLine L x :=
        fun x hx => hlines x (hgm.2.2 x hx)
      have hgnl : ∀ x ∈ g, ('\n') ∉ x :=
        fun x hx => hnonl x (hgm.2.2 x hx)
      have hsplit : splitNL (joinNL g) = g := splitNL_joinNL g hgm.2.1 hgnl
      refine ⟨joinNL_ne_nil g hgm.2.1 (fun l hl => (hgsub l hl).1), ?_, ?_⟩
      · intro line hline
        rw [hsplit] at hline
        exact (hgsub line hline).2.2.2
      · intro _
        rw [hsplit]
        exact ⟨hgm.1, fun line hline =>
          ⟨(hgsub line hline).1, (hgsub line hline).2.1⟩⟩

/-- Every caption chunk of `split_text_for_subtitles` comes from a
non-empty, stripped packed chunk whose characters are characters of the
input text. -/
lemma split_text_chunk_src (text : List Char) (L M : Nat) :
    ∀ chunk ∈ split_text_for_subtitles text L M,
      ∃ pc, pc ≠ [] ∧ NoEdgeWS pc ∧ (∀ x ∈ pc, x ∈ text) ∧
        chunk ∈ wrapChunk L M pc := by
  intro chunk hc
  unfold split_text_for_subtitles at hc
  rcases List.mem_flatMap.mp hc with ⟨pc, hpc, hcw⟩
  have hsent := sentSplitAux_good (fun c => c ∈ text) text []
    (fun x hx => hx) (fun x hx => absurd hx (List.not_mem_nil x))
  have hprops := packChunksAux_good (fun c => c ∈ text) (L * M)
    (sentSplitAux text []) [] hsent (Or.inl rfl) pc hpc
  exact ⟨pc, hprops.1, hprops.2.1, hprops.2.2, hcw⟩

/-- C6: every physical line of every caption returned by
`split_text_for_subtitles` has length at most `max_chars_per_line`,
except a line consisting of a single whitespace-free token (the
documented no-hyphenation overflow).  `max_lines ≥ 1` keeps the grouping
step inside the domain where the Python `range` step is positive. -/
theorem split_text_line_width (text : List Char) (L M : Nat) (hM : 1 ≤ M) :
    ∀ chunk ∈ split_text_for_subtitles text L M,
      ∀ line ∈ splitNL chunk,
        line.length ≤ L ∨ ∀ c ∈ line, isPySpace c = false := by
  intro chunk hc line hline
  rcases split_text_chunk_src text L M chunk hc with ⟨pc, hne, hed, _, hcw⟩
  exact (wrapChunk_master L M hM hne hed chunk hcw).2.1 line hline

/-- Witness for C6: on `"hello world"` with width 5 the caption
`"hello\nworld"` is returned and its first line `"hello"` is within the
bound. -/
theorem split_text_line_width_witness :
    (("hello\nworld").toList ∈
      split_text_for_subtitles (("hello world").toList) 5 2) ∧
    (("hello").toList ∈ splitNL (("hello\nworld").toList)) ∧
    ((("hello").toList.length ≤ 5) ∨
      ∀ c ∈ ("hello").toList, isPySpace c = false) :=
  ⟨by decide, by decide,
    split_text_line_width (("hello world").toList) 5 2 (by decide)
      (("hello\nworld").toList) (by decide) (("hello").toList) (by decide)⟩

/-- Counterexample to C5 as stated: the newline-containing input
`"a\nb\nc"` fits within one line's budget, is passed through verbatim,
and the resulting single caption has 3 physical lines, exceeding
`max_lines = 2`. -/
theorem split_text_line_count_cex :
    (("a\nb\nc").toList ∈
      split_text_for_subtitles (("a\nb\nc").toList) 20 2) ∧
    (splitNL (("a\nb\nc").toList)).length = 3 ∧ ¬(3 ≤ 2) :=
  ⟨by decide, by decide, by decide⟩

/-- C5 (amended): for every input without newline characters and every
`max_lines ≥ 1`, every caption returned by `split_text_for_subtitles`
has at most `max_lines` physical lines.  (A chunk short enough to be
passed through verbatim can carry newlines of the input itself, which is
what the counterexample exploits.) -/
theorem split_text_line_count (text : List Char) (L M : Nat) (hM : 1 ≤ M)
    (hnl : ('\n') ∉ text) :
    ∀ chunk ∈ split_text_for_subtitles text L M,
      (splitNL chunk).length ≤ M := by
  intro chunk hc
  rcases split_text_chunk_src text L M chunk hc with ⟨pc, hne, hed, hsub, hcw⟩
  have hpcnl : ('\n') ∉ pc := fun hmem => hnl (hsub _ hmem)
  exact ((wrapChunk_master L M hM hne hed chunk hcw).2.2 hpcnl).1

/-- Witness for C5 (amended) on the newline-free input `"ab cd"`. -/
theorem split_text_line_count_witness :
    (1 ≤ 2) ∧ (('\n') ∉ ("ab cd").toList) ∧
    (("ab\ncd").toList ∈ split_text_for_subtitles (("ab cd").toList) 2 2) ∧
    (splitNL (("ab\ncd").toList)).length ≤ 2 :=
  ⟨by decide, by decide, by decide,
    split_text_line_count (("ab cd").toList) 2 2 (by decide) (by decide)
      (("ab\ncd").toList) (by decide)⟩

/-- Counterexample to C10 as stated: in `"a\n b"` the whole string fits
one line's budget and is passed through verbatim; its second physical
line `" b"` begins with a space. -/
theorem split_text_line_stripped_cex :
    (("a\n b").toList ∈ split_text_for_subtitles (("a\n b").toList) 20 2) ∧
    ((" b").toList ∈ splitNL (("a\n b").toList)) ∧
    ((" b").toList.head? = some ' ') ∧ isPySpace ' ' = true :=
  ⟨by decide, by decide, by decide, by decide⟩

/-- C10 (amended): every string returned by `split_text_for_subtitles`
is non-empty; and when the input contains no newline characters, every
physical line of every returned caption is non-empty and carries no
leading or trailing whitespace. -/
theorem split_text_chunks_nonempty_lines_stripped (text : List Char)
    (L M : Nat) (hM : 1 ≤ M) :
    ∀ chunk ∈ split_text_for_subtitles text L M,
      chunk ≠ [] ∧
      (('\n') ∉ text →
        ∀ line ∈ splitNL chunk, line ≠ [] ∧ pyStrip line = line) := by
  intro chunk hc
  rcases split_text_chunk_src text L M chunk hc with ⟨pc, hne, hed, hsub, hcw⟩
  have hmaster := wrapChunk_master L M hM hne hed chunk hcw
  refine ⟨hmaster.1, fun hnl line hline => ?_⟩
  have hpcnl : ('\n') ∉ pc := fun hmem => hnl (hsub _ hmem)
  have := (hmaster.2.2 hpcnl).2 line hline
  exact ⟨this.1, pyStrip_eq_self this.2⟩

/-- Witness for C10 (amended) on the newline-free input `"ab cd"`. -/
theorem split_text_chunks_nonempty_lines_stripped_witness :
    (("ab\ncd").toList ∈ split_text_for_subtitles (("ab cd").toList) 2 2) ∧
    (("ab\ncd").toList ≠ []) ∧
    (('\n') ∉ ("ab cd").toList) ∧
    (∀ line ∈ splitNL (("ab\ncd").toList),
      line ≠ [] ∧ pyStrip line = line) :=
  ⟨by decide, by decide, by decide,
    (split_text_chunks_nonempty_lines_stripped (("ab cd").toList) 2 2
        (by decide) (("ab\ncd").toList) (by decide)).2 (by decide)⟩

end SubGen
